import Mathlib

/-!
Verification of the mutator-set core (sliding-window Bloom filter accumulator).

The development shallowly embeds the Rust sources under
src/src/util_types/mutator_set/.  Machine integers (u128, u32, usize) are
modelled as Nat; the usize cast that Rust performs with the `as` operator is
modelled as reduction modulo 2^64.  Fallible code (panics, unwraps,
out-of-bounds slice accesses, and the potentially diverging rejection loop of
the index sampler) is modelled with Option, where `none` marks a failure or
divergence of the corresponding Rust execution.

External collaborators that are not part of the source corpus (the hash
collaborator `simple_hasher`, the MMR primitive, and the chunk dictionary /
membership-proof containers) are modelled from the specification, as noted on
each such definition.
-/

namespace MutatorSet

/-- WINDOW_SIZE, from set_commitment.rs line 19. -/
def WINDOW_SIZE : Nat := 30000

/-- CHUNK_SIZE, from set_commitment.rs line 20. -/
def CHUNK_SIZE : Nat := 1500

/-- BATCH_SIZE, from set_commitment.rs line 21. -/
def BATCH_SIZE : Nat := 10

/-- NUM_TRIALS, from set_commitment.rs line 22. -/
def NUM_TRIALS : Nat := 160

/-- Modulus of the usize type on the 64-bit targets the crate is built for;
Rust's `as usize` cast on a u128 truncates modulo this value. -/
def U64MOD : Nat := 2 ^ 64

/-- Modelled from the spec: the hash collaborator (simple_hasher is not part
of the corpus).  Digests are an abstract type D.  `hash_pair` combines two
digests, `toDigest` encodes a u128 (the ToDigest impl used for timestamps and
counters), `hash_chunk` hashes the dense representation of a chunk, and `raw`
is the digest-to-integer view used by the rejection sampler. -/
structure Hasher (D : Type) where
  hash_pair : D → D → D
  toDigest : Nat → D
  raw : D → Nat
  hash_chunk : Nat → D

/-- Modelled from the spec: `sample_index_not_power_of_two(digest, modulus)`
returns an integer uniform in [0, modulus); after rejection of the biased
high range the net effect on the surviving raw value is reduction modulo the
modulus, which is what we model. -/
def Hasher.sample_index_not_power_of_two {D : Type} (h : Hasher D) (d : D) (modulus : Nat) : Nat :=
  h.raw d % modulus

/-- Modelled from the spec: an MMR membership proof for the idealized MMR
below.  Real authentication paths carry sibling digests; because the
idealized accumulator exposes its full leaf list as its peaks, only the leaf
index (`data_index` in the source) is needed. -/
structure MmrMembershipProof where
  data_index : Nat
deriving DecidableEq

/-- Modelled from the spec: the MMR collaborator, idealized as a perfectly
binding accumulator whose state is its list of leaves.  `get_peaks` is the
identity on that list and `count_leaves` its length. -/
def MmrMembershipProof.verify {D : Type} [DecidableEq D] (mp : MmrMembershipProof)
    (peaks : List D) (leaf : D) (leaf_count : Nat) : Bool :=
  decide (leaf_count = peaks.length) && decide (peaks[mp.data_index]? = some leaf)

/-- Modelled from the spec: MMR `append` returns the new accumulator and the
membership proof of the appended leaf. -/
def mmrAppend {D : Type} (m : List D) (leaf : D) : List D × MmrMembershipProof :=
  (m ++ [leaf], ⟨m.length⟩)

/-- The dense chunk of set_commitment.rs / accumulation_scheme.rs
(`Chunk { bits: [bool; CHUNK_SIZE] }`, accumulation_scheme.rs lines 24-27),
modelled as a natural-number bitmask: bit i of the number is bits[i] of the
array.  Every chunk access in the embedded code paths is taken modulo
CHUNK_SIZE, matching the fixed array size. -/
abbrev DenseChunk : Type := Nat

/-- Read bit i of a dense chunk (bits[i]). -/
def DenseChunk.getBit (c : DenseChunk) (i : Nat) : Bool :=
  Nat.testBit c i

/-- Set bit i of a dense chunk to true (bits[i] = true). -/
def DenseChunk.setBit (c : DenseChunk) (i : Nat) : DenseChunk :=
  c ||| (1 <<< i)

/-- Pack bits start, start+1, ..., start+n-1 of a bit function into a
bitmask, by binary splitting with a structural fuel of tree depth (so that
the kernel can evaluate it without deep recursion); requires n ≤ 2^fuel. -/
def windowPack (w : Nat → Bool) : Nat → Nat → Nat → Nat
  | 0, start, n => if n = 0 then 0 else cond (w start) 1 0
  | fuel + 1, start, n =>
      if n ≤ 1 then (if n = 0 then 0 else cond (w start) 1 0)
      else
        windowPack w fuel start (n / 2)
          + (windowPack w fuel (start + n / 2) (n - n / 2)) <<< (n / 2)

/-- The chunk snapshot `self.swbf_active[..CHUNK_SIZE]` taken when the window
slides: the first CHUNK_SIZE bits of the active window.  2^11 = 2048 covers
CHUNK_SIZE = 1500. -/
def windowChunkOf (w : Nat → Bool) : DenseChunk :=
  windowPack w 11 0 CHUNK_SIZE

/-- Modelled from the spec: ChunkDictionary (chunk_dictionary.rs is not part
of the corpus): a map from chunk index to (MMR membership proof, chunk),
modelled as an association list. -/
abbrev ChunkDictionary (D : Type) : Type := List (Nat × MmrMembershipProof × DenseChunk)

/-- SetCommitment, from set_commitment.rs lines 40-46.  The AOCL MMR and the
SWBF-inactive MMR are the idealized leaf-list accumulators; the active window
[bool; WINDOW_SIZE] is modelled as a function on bit positions. -/
structure SetCommitment (D : Type) where
  aocl : List D
  swbf_inactive : List D
  swbf_active : Nat → Bool

/-- SetCommitment::default, from set_commitment.rs lines 102-109. -/
def SetCommitment.default (D : Type) : SetCommitment D :=
  ⟨[], [], fun _ => false⟩

/-- AdditionRecord with an AOCL snapshot, from accumulation_scheme.rs lines
82-85 and its construction in set_commitment.rs line 120. -/
structure AdditionRecord (D : Type) where
  commitment : D
  aocl_snapshot : List D

/-- AdditionRecord::has_matching_aocl, from accumulation_scheme.rs lines
91-95: the snapshot matches when leaf counts and peaks agree. -/
def AdditionRecord.has_matching_aocl {D : Type} [DecidableEq D] (r : AdditionRecord D)
    (aocl_accumulator : List D) : Bool :=
  decide (r.aocl_snapshot.length = aocl_accumulator.length)
    && decide (r.aocl_snapshot = aocl_accumulator)

/-- Modelled from the spec: MembershipProof (membership_proof.rs is not part
of the corpus); fields per spec section 3 and their uses in
set_commitment.rs: randomness, AOCL authentication path, target chunks, and
the optional cached bit indices. -/
structure MembershipProof (D : Type) where
  randomness : D
  auth_path_aocl : MmrMembershipProof
  target_chunks : ChunkDictionary D
  cached_bits : Option (List Nat)

/-- RemovalRecord, from removal_record.rs lines 124-128 (bit indices plus
target chunks). -/
structure RemovalRecord (D : Type) where
  bit_indices : List Nat
  target_chunks : ChunkDictionary D

/-- SetCommitment::commit, from set_commitment.rs lines 115-121. -/
def commit {D : Type} (h : Hasher D) (s : SetCommitment D) (item randomness : D) :
    AdditionRecord D :=
  ⟨h.hash_pair item randomness, s.aocl⟩

/-- SetCommitment::window_slides, from set_commitment.rs lines 153-160. -/
def window_slides (index : Nat) : Bool :=
  decide (index ≠ 0) && decide (index % BATCH_SIZE = 0)

/-- SetCommitment::add_helper, from set_commitment.rs lines 164-205.  `none`
models the panic on a mismatching AOCL snapshot.  On success it returns the
new state and, when the window slid, the (chunk index, chunk) pair that was
archived. -/
def add_helper {D : Type} [DecidableEq D] (h : Hasher D) (s : SetCommitment D)
    (addition_record : AdditionRecord D) :
    Option (SetCommitment D × Option (Nat × DenseChunk)) :=
  if addition_record.has_matching_aocl s.aocl then
    let item_index := s.aocl.length
    let aocl' := s.aocl ++ [addition_record.commitment]
    if window_slides item_index then
      let chunk : DenseChunk := windowChunkOf s.swbf_active
      let chunk_digest := h.hash_chunk chunk
      let swbf_inactive' := s.swbf_inactive ++ [chunk_digest]
      let swbf_active' : Nat → Bool := fun i =>
        if i < WINDOW_SIZE - CHUNK_SIZE then s.swbf_active (i + CHUNK_SIZE) else false
      some (⟨aocl', swbf_inactive', swbf_active'⟩, some (swbf_inactive'.length - 1, chunk))
    else
      some ({ s with aocl := aocl' }, none)
  else
    none

/-- Removal of consecutive duplicates, modelling Vec::dedup as called in
get_swbf_indices (set_commitment.rs lines 79 and 88). -/
def dedupConsec : List Nat → List Nat
  | [] => []
  | [x] => [x]
  | x :: y :: rest => if x = y then dedupConsec (y :: rest) else x :: dedupConsec (y :: rest)

/-- sort_unstable followed by dedup, the normalization step of
get_swbf_indices.  Sorting Nats is order-deterministic, so insertion sort is
an exact model of slice::sort_unstable. -/
def sortDedup (l : List Nat) : List Nat :=
  dedupConsec (List.insertionSort (· ≤ ·) l)

/-- One pseudorandom bloom-filter index: the sampler applied to
H(encode(counter), rhs), shifted by the batch offset (set_commitment.rs lines
70-73 and 82-85). -/
def swbfSample {D : Type} (h : Hasher D) (rhs : D) (batch_index j : Nat) : Nat :=
  h.sample_index_not_power_of_two (h.hash_pair (h.toDigest j) rhs) WINDOW_SIZE
    + batch_index * CHUNK_SIZE

/-- The while-loop of get_swbf_indices (set_commitment.rs lines 80-90),
collecting further samples until NUM_TRIALS distinct indices are present.
The loop has no intrinsic termination bound (an adversarial sampler can
repeat values forever), so it is modelled with fuel; `none` models
divergence. -/
def swbfCollectLoop {D : Type} (h : Hasher D) (rhs : D) (batch_index : Nat) :
    Nat → Nat → List Nat → Option (List Nat)
  | 0, _, indices =>
      if NUM_TRIALS ≤ indices.length then some indices else none
  | fuel + 1, j, indices =>
      if NUM_TRIALS ≤ indices.length then some indices
      else
        swbfCollectLoop h rhs batch_index fuel (j + 1)
          (sortDedup (indices ++ [swbfSample h rhs batch_index j]))

/-- get_swbf_indices, from set_commitment.rs lines 50-93: derive NUM_TRIALS
distinct bloom-filter indices for (item, randomness, aocl_leaf_index). -/
def get_swbf_indices {D : Type} (h : Hasher D) (item randomness : D)
    (aocl_leaf_index fuel : Nat) : Option (List Nat) :=
  let batch_index := aocl_leaf_index / BATCH_SIZE
  let timestamp := h.toDigest aocl_leaf_index
  let rhs := h.hash_pair item (h.hash_pair timestamp randomness)
  let initial := sortDedup ((List.range NUM_TRIALS).map (swbfSample h rhs batch_index))
  swbfCollectLoop h rhs batch_index fuel NUM_TRIALS initial

/-- SetCommitment::prove, from set_commitment.rs lines 266-298.  The AOCL
authentication path is the one returned by appending to a copy of the
accumulator; target chunks start empty; bit indices are cached on request.
`none` models divergence of the index derivation. -/
def prove {D : Type} (h : Hasher D) (s : SetCommitment D) (item randomness : D)
    (store_bits : Bool) (fuel : Nat) : Option (MembershipProof D) :=
  let auth_path_aocl : MmrMembershipProof := ⟨s.aocl.length⟩
  if store_bits then
    match get_swbf_indices h item randomness s.aocl.length fuel with
    | none => none
    | some bits => some ⟨randomness, auth_path_aocl, [], some bits⟩
  else
    some ⟨randomness, auth_path_aocl, [], none⟩

/-- The bit indices a verification or removal works with: the cached ones if
present, otherwise freshly derived (set_commitment.rs lines 132-140 and
330-338). -/
def resolveBits {D : Type} (h : Hasher D) (item : D) (mp : MembershipProof D)
    (fuel : Nat) : Option (List Nat) :=
  match mp.cached_bits with
  | some bits => some bits
  | none => get_swbf_indices h item mp.randomness mp.auth_path_aocl.data_index fuel

/-- SetCommitment::drop, from set_commitment.rs lines 127-146. -/
def drop {D : Type} (h : Hasher D) (s : SetCommitment D) (item : D)
    (mp : MembershipProof D) (fuel : Nat) : Option (RemovalRecord D) :=
  match resolveBits h item mp fuel with
  | none => none
  | some bit_indices => some ⟨bit_indices, mp.target_chunks⟩

/-- The distinct chunk indices appearing in a list of bit indices, in order
of first appearance; models the key set of bit_indices_to_hash_map
(shared.rs, not part of the corpus, grouping by bit_index / CHUNK_SIZE). -/
def chunkIndexList (bits : List Nat) : List Nat :=
  (bits.map (· / CHUNK_SIZE)).dedup

/-- The bit indices of a given chunk, in list order; the value set of
bit_indices_to_hash_map for one key. -/
def bitsForChunk (bits : List Nat) (ci : Nat) : List Nat :=
  bits.filter (fun b => decide (b / CHUNK_SIZE = ci))

/-- The window-relative position of a bit index: u128 subtraction followed by
the `as usize` truncating cast. -/
def relIndex (ws b : Nat) : Nat :=
  (b - ws) % U64MOD

/-- Set a list of bit indices inside one dense chunk (bit_index % CHUNK_SIZE
each), as in set_commitment.rs lines 228-230. -/
def setBitsInChunk (c : DenseChunk) (bs : List Nat) : DenseChunk :=
  bs.foldl (fun ch b => ch.setBit (b % CHUNK_SIZE)) c

/-- Setting the active-window bits of one chunk group during remove_helper
(set_commitment.rs lines 217-224).  `none` models the out-of-bounds panic on
`swbf_active[relative_index]`. -/
def removeActiveScanSet (ws : Nat) (active : Nat → Bool) :
    List Nat → Option (Nat → Bool)
  | [] => some active
  | b :: bs =>
      let rel := relIndex ws b
      if rel < WINDOW_SIZE then
        removeActiveScanSet ws (fun i => if i = rel then true else active i) bs
      else none

/-- The per-chunk-group loop of remove_helper (set_commitment.rs lines
216-231): chunk groups at or beyond the batch index set active-window bits;
archived groups set bits inside the chunk held in the record's dictionary
(`none` models the panicking unwrap when the dictionary lacks the chunk). -/
def removeChunksPhase {D : Type} (batch ws : Nat) (bits : List Nat) :
    List Nat → (Nat → Bool) → ChunkDictionary D →
    Option ((Nat → Bool) × ChunkDictionary D)
  | [], active, dict => some (active, dict)
  | ci :: rest, active, dict =>
      if batch ≤ ci then
        match removeActiveScanSet ws active (bitsForChunk bits ci) with
        | none => none
        | some active' => removeChunksPhase batch ws bits rest active' dict
      else
        match dict.lookup ci with
        | none => none
        | some pc =>
            let c' := setBitsInChunk pc.2 (bitsForChunk bits ci)
            let dict' := dict.map (fun e => if e.1 = ci then (e.1, e.2.1, c') else e)
            removeChunksPhase batch ws bits rest active dict'

/-- SetCommitment::remove_helper, from set_commitment.rs lines 207-259.
After the bit-setting phase, every dictionary entry's (possibly updated)
chunk digest is written to the SWBF-inactive MMR leaf named by the entry's
membership proof (the batch leaf mutation).  The result pairs the new state
with the chunk-index-to-chunk map the source returns.  `none` models the
underflow panic on an empty AOCL and the panics of the bit-setting phase. -/
def remove_helper {D : Type} (h : Hasher D) (s : SetCommitment D)
    (removal_record : RemovalRecord D) :
    Option (SetCommitment D × List (Nat × DenseChunk)) :=
  if s.aocl.length = 0 then none
  else
    let batch_index := (s.aocl.length - 1) / BATCH_SIZE
    let window_start := batch_index * CHUNK_SIZE
    match removeChunksPhase batch_index window_start removal_record.bit_indices
        (chunkIndexList removal_record.bit_indices) s.swbf_active
        removal_record.target_chunks with
    | none => none
    | some (active', dict') =>
        let swbf_inactive' := dict'.foldl
          (fun m e => m.set e.2.1.data_index (h.hash_chunk e.2.2)) s.swbf_inactive
        some (⟨s.aocl, swbf_inactive', active'⟩, dict'.map (fun e => (e.1, e.2.2)))

/-- The active-window scan of verify (set_commitment.rs lines 376-382): walk
the bits of one chunk group, stopping at the first unset bit (`some true`),
returning `some false` when all are set; `none` models the out-of-bounds
panic on `swbf_active[relative_index]`. -/
def verifyActiveScan (active : Nat → Bool) (ws : Nat) : List Nat → Option Bool
  | [] => some false
  | b :: bs =>
      let rel := relIndex ws b
      if rel < WINDOW_SIZE then
        if active rel then verifyActiveScan active ws bs else some true
      else none

/-- The chunk-group loop of verify (set_commitment.rs lines 341-384),
carrying the all_auth_paths_are_valid and has_unset_bits flags; a missing
dictionary entry short-circuits the verdict to false (entries_in_dictionary
plus the outer break). -/
def verifyLoop {D : Type} [DecidableEq D] (h : Hasher D) (s : SetCommitment D)
    (dict : ChunkDictionary D) (batch ws : Nat) (bits : List Nat) :
    List Nat → Bool → Bool → Option Bool
  | [], valid, unset => some (valid && unset)
  | ci :: rest, valid, unset =>
      if ci < batch then
        match dict.lookup ci with
        | none => some false
        | some pc =>
            let pathOk := pc.1.verify s.swbf_inactive (h.hash_chunk pc.2)
              s.swbf_inactive.length
            let unset' := unset
              || (bitsForChunk bits ci).any (fun b => ! pc.2.getBit (b % CHUNK_SIZE))
            verifyLoop h s dict batch ws bits rest (valid && pathOk) unset'
      else
        match verifyActiveScan s.swbf_active ws (bitsForChunk bits ci) with
        | none => none
        | some found => verifyLoop h s dict batch ws bits rest valid (unset || found)

/-- SetCommitment::verify, from set_commitment.rs lines 300-388. -/
def verify {D : Type} [DecidableEq D] (h : Hasher D) (s : SetCommitment D) (item : D)
    (mp : MembershipProof D) (fuel : Nat) : Option Bool :=
  if s.aocl.length ≤ mp.auth_path_aocl.data_index then some false
  else
    let leaf := h.hash_pair item mp.randomness
    if mp.auth_path_aocl.verify s.aocl leaf s.aocl.length then
      let current_batch_index := (s.aocl.length - 1) / BATCH_SIZE
      let window_start := current_batch_index * CHUNK_SIZE
      match resolveBits h item mp fuel with
      | none => none
      | some all_bit_indices =>
          verifyLoop h s mp.target_chunks current_batch_index window_start
            all_bit_indices (chunkIndexList all_bit_indices) true false
    else some false

/-- The sparse Chunk of chunk.rs lines 8-11: the (not necessarily distinct)
list of set bit positions, kept sorted by set_bit. -/
structure Chunk where
  bits : List Nat
deriving DecidableEq

/-- Chunk::empty_chunk, from chunk.rs lines 14-17. -/
def Chunk.empty_chunk : Chunk := ⟨[]⟩

/-- Chunk::set_bit, from chunk.rs lines 19-28: push the index and re-sort;
`none` models the assertion failure on an index at or beyond CHUNK_SIZE. -/
def Chunk.set_bit (c : Chunk) (index : Nat) : Option Chunk :=
  if index < CHUNK_SIZE then
    some ⟨List.insertionSort (· ≤ ·) (c.bits ++ [index])⟩
  else none

/-- Chunk::unset_bit, from chunk.rs lines 30-47: remove every stored copy of
the index; `none` models the assertion failure. -/
def Chunk.unset_bit (c : Chunk) (index : Nat) : Option Chunk :=
  if index < CHUNK_SIZE then
    some ⟨c.bits.filter (fun i => decide (i ≠ index))⟩
  else none

/-- Chunk::get_bit, from chunk.rs lines 49-58; `none` models the assertion
failure. -/
def Chunk.get_bit (c : Chunk) (index : Nat) : Option Bool :=
  if index < CHUNK_SIZE then some (decide (index ∈ c.bits)) else none

/-- Chunk::is_unset, from chunk.rs lines 101-103: tests that every stored
position is the number zero (bits.iter().all(|x| x.is_zero())). -/
def Chunk.is_unset (c : Chunk) : Bool :=
  c.bits.all (fun x => decide (x = 0))

/-- The states of the set commitment reachable from SetCommitment::default by
successful add_helper and remove_helper steps. -/
inductive Reachable {D : Type} [DecidableEq D] (h : Hasher D) : SetCommitment D → Prop where
  | init : Reachable h (SetCommitment.default D)
  | add_step {s s' : SetCommitment D} {r : AdditionRecord D} {c : Option (Nat × DenseChunk)} :
      Reachable h s → add_helper h s r = some (s', c) → Reachable h s'
  | remove_step {s s' : SetCommitment D} {rr : RemovalRecord D} {m : List (Nat × DenseChunk)} :
      Reachable h s → remove_helper h s rr = some (s', m) → Reachable h s'

/-- The batch index verify and remove_helper work with:
(aocl.count_leaves() - 1) / BATCH_SIZE (set_commitment.rs lines 208 and
326). -/
def currentBatch {D : Type} (s : SetCommitment D) : Nat :=
  (s.aocl.length - 1) / BATCH_SIZE

/-- The first absolute bit position of the active window as used by verify
and remove_helper (set_commitment.rs lines 209 and 327). -/
def windowStart {D : Type} (s : SetCommitment D) : Nat :=
  currentBatch s * CHUNK_SIZE

/-- Invariant 1 of the specification, section 3: the AOCL authentication path
verifies the commitment H(item, randomness) at the proof's leaf index against
the current AOCL peaks and leaf count, the leaf index existing in the
AOCL. -/
def specMemberCond {D : Type} [DecidableEq D] (h : Hasher D) (s : SetCommitment D)
    (item : D) (mp : MembershipProof D) : Prop :=
  mp.auth_path_aocl.data_index < s.aocl.length ∧
    mp.auth_path_aocl.verify s.aocl (h.hash_pair item mp.randomness) s.aocl.length = true

/-- Invariant 2 of the specification, section 3: every derived index whose
chunk index is strictly below the current batch index has a target-chunks
entry whose MMR proof verifies against the current SWBF-inactive peaks. -/
def specChunksCond {D : Type} [DecidableEq D] (h : Hasher D) (s : SetCommitment D)
    (mp : MembershipProof D) (bits : List Nat) : Prop :=
  ∀ b ∈ bits, b / CHUNK_SIZE < currentBatch s →
    ∃ pc, mp.target_chunks.lookup (b / CHUNK_SIZE) = some pc ∧
      pc.1.verify s.swbf_inactive (h.hash_chunk pc.2) s.swbf_inactive.length = true

/-- Invariant 3 of the specification, section 3: at least one derived index
is unset, in its dictionary chunk for archived indices and in the active
window otherwise. -/
def specUnsetCond {D : Type} (s : SetCommitment D) (mp : MembershipProof D)
    (bits : List Nat) : Prop :=
  ∃ b ∈ bits,
    if b / CHUNK_SIZE < currentBatch s then
      ∃ pc, mp.target_chunks.lookup (b / CHUNK_SIZE) = some pc ∧
        pc.2.getBit (b % CHUNK_SIZE) = false
    else
      s.swbf_active (relIndex (windowStart s) b) = false

/-- A second definition following the words of claim C4: identical to verify
except that the current batch index is taken to be
aocl.count_leaves() / BATCH_SIZE, the boundary the claim asserts.  Only for
comparison against `verify`, which divides count_leaves() - 1. -/
def verify_specB {D : Type} [DecidableEq D] (h : Hasher D) (s : SetCommitment D) (item : D)
    (mp : MembershipProof D) (fuel : Nat) : Option Bool :=
  if s.aocl.length ≤ mp.auth_path_aocl.data_index then some false
  else
    let leaf := h.hash_pair item mp.randomness
    if mp.auth_path_aocl.verify s.aocl leaf s.aocl.length then
      let claim_batch_index := s.aocl.length / BATCH_SIZE
      let window_start := claim_batch_index * CHUNK_SIZE
      match resolveBits h item mp fuel with
      | none => none
      | some all_bit_indices =>
          verifyLoop h s mp.target_chunks claim_batch_index window_start
            all_bit_indices (chunkIndexList all_bit_indices) true false
    else some false

/-- A concrete hasher over Nat digests for evaluating the model on explicit
inputs: pairing shifts the second argument by 2^64, the sampler view reads
the low 64 bits, and chunks are hashed by the identity on their (injective)
bitmask encoding. -/
def natHasher : Hasher Nat where
  hash_pair a b := a + (2 ^ 64) * b
  toDigest n := n
  raw d := d % 2 ^ 64
  hash_chunk c := c

/-- A sequence of additions through commit and add_helper, each record
carrying the snapshot of the AOCL it is added to. -/
def addItems {D : Type} [DecidableEq D] (h : Hasher D) :
    SetCommitment D → List (D × D) → Option (SetCommitment D)
  | s, [] => some s
  | s, (it, r) :: rest =>
      match add_helper h s (commit h s it r) with
      | none => none
      | some (s', _) => addItems h s' rest

/-- The state after k additions of the fixed item 5 with randomness 7 under
natHasher, starting from the default set commitment. -/
def addTrace (k : Nat) : SetCommitment Nat :=
  match addItems natHasher (SetCommitment.default Nat) (List.replicate k (5, 7)) with
  | some s => s
  | none => SetCommitment.default Nat

/-- An honest membership proof for the item 5 with randomness 7 proved
against the empty set commitment (AOCL leaf 0, empty chunk dictionary, no
cached bits). -/
def mp0 : MembershipProof Nat := ⟨7, ⟨0⟩, [], none⟩

/-- The removal record dropped for item 5 against the one-element state. -/
def rr0 : RemovalRecord Nat :=
  match drop natHasher (addTrace 1) 5 mp0 0 with
  | some rr => rr
  | none => ⟨[], []⟩

/-- The state obtained by adding item 5 and then removing it again. -/
def sAfterRemove : SetCommitment Nat :=
  match remove_helper natHasher (addTrace 1) rr0 with
  | some p => p.1
  | none => SetCommitment.default Nat

/-- A membership proof for a second item 6 (randomness 8) proved against
sAfterRemove, before that item is added. -/
def mpB : MembershipProof Nat :=
  match prove natHasher sAfterRemove 6 8 false 0 with
  | some mp => mp
  | none => mp0

/-- The state after additionally adding item 6 to sAfterRemove. -/
def sB : SetCommitment Nat :=
  match add_helper natHasher sAfterRemove (commit natHasher sAfterRemove 6 8) with
  | some p => p.1
  | none => SetCommitment.default Nat

/-- The derived bit indices of item 5 with randomness 7 at AOCL leaf 0 under
natHasher. -/
def c2bits : List Nat :=
  match get_swbf_indices natHasher 5 7 0 0 with
  | some l => l
  | none => []

/-- A membership proof that verifies against the state after 21 additions
although its dictionary is malformed: the entry for chunk 1 reuses the MMR
leaf index 0, whose archived chunk has the same (all-zero) content. -/
def c3mpBad : MembershipProof Nat := ⟨7, ⟨0⟩, [(0, ⟨0⟩, 0), (1, ⟨0⟩, 0)], none⟩

/-- The removal record dropped from the malformed proof. -/
def c3rrBad : RemovalRecord Nat :=
  match drop natHasher (addTrace 21) 5 c3mpBad 0 with
  | some rr => rr
  | none => ⟨[], []⟩

/-- The state after applying that removal to the 21-addition state. -/
def c3sPost : SetCommitment Nat :=
  match remove_helper natHasher (addTrace 21) c3rrBad with
  | some p => p.1
  | none => SetCommitment.default Nat

/-- A membership proof whose cached bit indices all lie at or beyond the end
of the active window of the one-element state. -/
def c8mpBad : MembershipProof Nat :=
  ⟨7, ⟨0⟩, [], some ((List.range NUM_TRIALS).map (fun i => WINDOW_SIZE + i))⟩

/-- Whether one chunk group contributes an unset bit, matching the inner
loops of verify: for an archived chunk the bit is looked up in the proof's
dictionary chunk, otherwise in the active window. -/
def chunkHasUnset {D : Type} (s : SetCommitment D) (dict : ChunkDictionary D)
    (batch ws : Nat) (bits : List Nat) (ci : Nat) : Prop :=
  if ci < batch then
    ∃ pc, dict.lookup ci = some pc ∧
      ∃ b ∈ bitsForChunk bits ci, pc.2.getBit (b % CHUNK_SIZE) = false
  else
    ∃ b ∈ bitsForChunk bits ci, s.swbf_active (relIndex ws b) = false

/-- The pointwise chunk update remove_helper applies to a dictionary: chunks
whose index is archived and present among the processed chunk indices
receive the bits of their group. -/
def updEntry (batch : Nat) (bits : List Nat) (cis : List Nat) :
    (Nat × MmrMembershipProof × DenseChunk) → (Nat × MmrMembershipProof × DenseChunk) :=
  fun e =>
    if e.1 < batch ∧ e.1 ∈ cis
    then (e.1, e.2.1, setBitsInChunk e.2.2 (bitsForChunk bits e.1)) else e

theorem mem_dedupConsec {a : Nat} : ∀ {l : List Nat}, a ∈ dedupConsec l ↔ a ∈ l
  | [] => Iff.rfl
  | [x] => Iff.rfl
  | x :: y :: rest => by
      unfold dedupConsec
      by_cases hxy : x = y
      · simp only [if_pos hxy]
        rw [mem_dedupConsec (l := y :: rest)]
        subst hxy
        simp [List.mem_cons]
      · simp only [if_neg hxy, List.mem_cons]
        rw [mem_dedupConsec (l := y :: rest)]
        simp [List.mem_cons]

theorem length_dedupConsec_le : ∀ l : List Nat, (dedupConsec l).length ≤ l.length
  | [] => le_refl _
  | [_] => le_refl _
  | x :: y :: rest => by
      unfold dedupConsec
      by_cases hxy : x = y
      · simp only [if_pos hxy]
        exact le_trans (length_dedupConsec_le (y :: rest)) (by simp)
      · simp only [if_neg hxy, List.length_cons]
        exact Nat.succ_le_succ (length_dedupConsec_le (y :: rest))

theorem sorted_lt_dedupConsec :
    ∀ {l : List Nat}, l.Sorted (· ≤ ·) → (dedupConsec l).Sorted (· < ·)
  | [], _ => List.sorted_nil
  | [x], _ => List.sorted_singleton x
  | x :: y :: rest, hs => by
      rw [List.sorted_cons] at hs
      obtain ⟨hx, hrest⟩ := hs
      unfold dedupConsec
      by_cases hxy : x = y
      · simp only [if_pos hxy]
        exact sorted_lt_dedupConsec hrest
      · simp only [if_neg hxy]
        rw [List.sorted_cons]
        refine ⟨?_, sorted_lt_dedupConsec hrest⟩
        intro b hb
        have hby : b ∈ y :: rest := mem_dedupConsec.mp hb
        have hxyle : x ≤ y := hx y (List.mem_cons_self y rest)
        have hxylt : x < y := lt_of_le_of_ne hxyle hxy
        rcases List.mem_cons.mp hby with hbeq | hbrest
        · exact hbeq ▸ hxylt
        · rw [List.sorted_cons] at hrest
          exact lt_of_lt_of_le hxylt (hrest.1 b hbrest)

theorem sortDedup_sorted (l : List Nat) : (sortDedup l).Sorted (· < ·) :=
  sorted_lt_dedupConsec (List.sorted_insertionSort (· ≤ ·) l)

theorem mem_sortDedup {a : Nat} {l : List Nat} : a ∈ sortDedup l ↔ a ∈ l :=
  mem_dedupConsec.trans (List.perm_insertionSort (· ≤ ·) l).mem_iff

theorem length_sortDedup_le (l : List Nat) : (sortDedup l).length ≤ l.length :=
  le_trans (length_dedupConsec_le _) (le_of_eq (List.perm_insertionSort (· ≤ ·) l).length_eq)

theorem swbfSample_bounds {D : Type} (h : Hasher D) (rhs : D) (B j : Nat) :
    B * CHUNK_SIZE ≤ swbfSample h rhs B j ∧
      swbfSample h rhs B j < B * CHUNK_SIZE + WINDOW_SIZE := by
  unfold swbfSample Hasher.sample_index_not_power_of_two
  constructor
  · exact Nat.le_add_left _ _
  · have : h.raw (h.hash_pair (h.toDigest j) rhs) % WINDOW_SIZE < WINDOW_SIZE :=
      Nat.mod_lt _ (by decide)
    omega

theorem swbfCollectLoop_spec {D : Type} (h : Hasher D) (rhs : D) (B : Nat) :
    ∀ (fuel j : Nat) (indices res : List Nat),
      swbfCollectLoop h rhs B fuel j indices = some res →
      indices.Sorted (· < ·) →
      indices.length ≤ NUM_TRIALS →
      (∀ a ∈ indices, B * CHUNK_SIZE ≤ a ∧ a < B * CHUNK_SIZE + WINDOW_SIZE) →
      res.length = NUM_TRIALS ∧ res.Sorted (· < ·) ∧
        ∀ a ∈ res, B * CHUNK_SIZE ≤ a ∧ a < B * CHUNK_SIZE + WINDOW_SIZE := by
  intro fuel
  induction fuel with
  | zero =>
      intro j indices res hres hsort hlen hbnd
      unfold swbfCollectLoop at hres
      by_cases hexit : NUM_TRIALS ≤ indices.length
      · rw [if_pos hexit] at hres
        obtain rfl : indices = res := by injection hres
        exact ⟨le_antisymm hlen hexit, hsort, hbnd⟩
      · rw [if_neg hexit] at hres
        exact absurd hres (by simp)
  | succ fuel ih =>
      intro j indices res hres hsort hlen hbnd
      unfold swbfCollectLoop at hres
      by_cases hexit : NUM_TRIALS ≤ indices.length
      · rw [if_pos hexit] at hres
        obtain rfl : indices = res := by injection hres
        exact ⟨le_antisymm hlen hexit, hsort, hbnd⟩
      · rw [if_neg hexit] at hres
        refine ih (j + 1) _ res hres (sortDedup_sorted _) ?_ ?_
        · calc (sortDedup (indices ++ [swbfSample h rhs B j])).length
              ≤ (indices ++ [swbfSample h rhs B j]).length := length_sortDedup_le _
            _ = indices.length + 1 := by simp
            _ ≤ NUM_TRIALS := by omega
        · intro a ha
          rcases List.mem_append.mp (mem_sortDedup.mp ha) with hin | hnew
          · exact hbnd a hin
          · rw [List.mem_singleton.mp hnew]
            exact swbfSample_bounds h rhs B j

theorem get_swbf_indices_shape {D : Type} (h : Hasher D) (item randomness : D)
    (leaf_index fuel : Nat) (bits : List Nat)
    (hder : get_swbf_indices h item randomness leaf_index fuel = some bits) :
    bits.length = NUM_TRIALS ∧ bits.Sorted (· < ·) ∧
      ∀ b ∈ bits, leaf_index / BATCH_SIZE * CHUNK_SIZE ≤ b ∧
        b < leaf_index / BATCH_SIZE * CHUNK_SIZE + WINDOW_SIZE := by
  unfold get_swbf_indices at hder
  refine swbfCollectLoop_spec h _ _ fuel NUM_TRIALS _ bits hder
    (sortDedup_sorted _) ?_ ?_
  · calc (sortDedup ((List.range NUM_TRIALS).map
        (swbfSample h (h.hash_pair item (h.hash_pair (h.toDigest leaf_index) randomness))
          (leaf_index / BATCH_SIZE)))).length
        ≤ ((List.range NUM_TRIALS).map
            (swbfSample h (h.hash_pair item (h.hash_pair (h.toDigest leaf_index) randomness))
              (leaf_index / BATCH_SIZE))).length := length_sortDedup_le _
      _ = NUM_TRIALS := by simp
  · intro a ha
    obtain ⟨j, _, rfl⟩ := List.mem_map.mp (mem_sortDedup.mp ha)
    exact swbfSample_bounds h _ _ j

/-- Claim C6: get_swbf_indices, whenever it returns (the rejection loop is
modelled with fuel and can in principle run forever against an adversarial
sampler), returns exactly NUM_TRIALS indices, strictly sorted ascending
(hence pairwise distinct, never duplicated, never fewer than NUM_TRIALS),
all within [B*CHUNK_SIZE, B*CHUNK_SIZE + WINDOW_SIZE) for
B = leaf_index / BATCH_SIZE. -/
theorem c6_index_derivation_shape {D : Type} (h : Hasher D) (item randomness : D)
    (leaf_index fuel : Nat) (bits : List Nat)
    (hder : get_swbf_indices h item randomness leaf_index fuel = some bits) :
    bits.length = NUM_TRIALS ∧ bits.Sorted (· < ·) ∧
      ∀ b ∈ bits, leaf_index / BATCH_SIZE * CHUNK_SIZE ≤ b ∧
        b < leaf_index / BATCH_SIZE * CHUNK_SIZE + WINDOW_SIZE :=
  get_swbf_indices_shape h item randomness leaf_index fuel bits hder

theorem mem_chunkIndexList {bits : List Nat} {ci : Nat} :
    ci ∈ chunkIndexList bits ↔ ∃ b ∈ bits, b / CHUNK_SIZE = ci := by
  unfold chunkIndexList
  rw [List.mem_dedup, List.mem_map]

theorem mem_bitsForChunk {bits : List Nat} {ci b : Nat} :
    b ∈ bitsForChunk bits ci ↔ b ∈ bits ∧ b / CHUNK_SIZE = ci := by
  unfold bitsForChunk
  rw [List.mem_filter, decide_eq_true_eq]

theorem verifyActiveScan_spec (active : Nat → Bool) (ws : Nat) :
    ∀ group : List Nat, (∀ b ∈ group, relIndex ws b < WINDOW_SIZE) →
      verifyActiveScan active ws group =
        some (group.any (fun b => ! active (relIndex ws b)))
  | [], _ => rfl
  | b :: bs, hb => by
      unfold verifyActiveScan
      rw [if_pos (hb b (List.mem_cons_self b bs))]
      by_cases hact : active (relIndex ws b)
      · rw [if_pos hact,
          verifyActiveScan_spec active ws bs (fun x hx => hb x (List.mem_cons_of_mem b hx))]
        simp [hact]
      · rw [if_neg hact]
        simp [hact]

theorem verifyLoop_spec {D : Type} [DecidableEq D] (h : Hasher D) (s : SetCommitment D)
    (dict : ChunkDictionary D) (batch ws : Nat) (bits : List Nat) :
    ∀ (cis : List Nat) (valid unset : Bool),
      (∀ ci ∈ cis, batch ≤ ci → ∀ b ∈ bitsForChunk bits ci, relIndex ws b < WINDOW_SIZE) →
      ∃ bv, verifyLoop h s dict batch ws bits cis valid unset = some bv ∧
        (bv = true ↔
          ((valid = true ∧ ∀ ci ∈ cis, ci < batch →
              ∃ pc, dict.lookup ci = some pc ∧
                pc.1.verify s.swbf_inactive (h.hash_chunk pc.2)
                  s.swbf_inactive.length = true)
            ∧ (unset = true ∨ ∃ ci ∈ cis, chunkHasUnset s dict batch ws bits ci)))
  | [], valid, unset, _ => by
      refine ⟨valid && unset, rfl, ?_⟩
      rw [Bool.and_eq_true]
      constructor
      · rintro ⟨hv, hu⟩
        exact ⟨⟨hv, fun ci hci => absurd hci (List.not_mem_nil ci)⟩, Or.inl hu⟩
      · rintro ⟨⟨hv, _⟩, hu | ⟨ci, hci, _⟩⟩
        · exact ⟨hv, hu⟩
        · exact absurd hci (List.not_mem_nil ci)
  | ci :: rest, valid, unset, hbnd => by
      unfold verifyLoop
      by_cases hci : ci < batch
      · rw [if_pos hci]
        cases hlook : dict.lookup ci with
        | none =>
            refine ⟨false, rfl, ⟨fun hft => absurd hft (by simp), fun hcontra => ?_⟩⟩
            obtain ⟨pc, hpc, _⟩ :=
              hcontra.1.2 ci (List.mem_cons_self ci rest) hci
            rw [hlook] at hpc
            exact absurd hpc (by simp)
        | some pc =>
            obtain ⟨bv, hbv, hiff⟩ :=
              verifyLoop_spec h s dict batch ws bits rest
                (valid && pc.1.verify s.swbf_inactive (h.hash_chunk pc.2)
                  s.swbf_inactive.length)
                (unset || (bitsForChunk bits ci).any
                  (fun b => ! pc.2.getBit (b % CHUNK_SIZE)))
                (fun ci' hci' => hbnd ci' (List.mem_cons_of_mem ci hci'))
            refine ⟨bv, hbv, hiff.trans ?_⟩
            constructor
            · rintro ⟨⟨hva, hrestValid⟩, hunset⟩
              rw [Bool.and_eq_true] at hva
              refine ⟨⟨hva.1, ?_⟩, ?_⟩
              · intro ci' hci' hlt
                rcases List.mem_cons.mp hci' with rfl | hmem
                · exact ⟨pc, hlook, hva.2⟩
                · exact hrestValid ci' hmem hlt
              · rcases hunset with hu | ⟨ci', hci', hcu⟩
                · rw [Bool.or_eq_true] at hu
                  rcases hu with hu' | hany'
                  · exact Or.inl hu'
                  · refine Or.inr ⟨ci, List.mem_cons_self ci rest, ?_⟩
                    unfold chunkHasUnset
                    rw [if_pos hci]
                    obtain ⟨b, hb, hbit⟩ := List.any_eq_true.mp hany'
                    exact ⟨pc, hlook, b, hb, by simpa using hbit⟩
                · exact Or.inr ⟨ci', List.mem_cons_of_mem ci hci', hcu⟩
            · rintro ⟨⟨hva, hallValid⟩, hunset⟩
              obtain ⟨pc', hpc', hver'⟩ := hallValid ci (List.mem_cons_self ci rest) hci
              rw [hlook] at hpc'
              obtain rfl : pc = pc' := by injection hpc'
              refine ⟨⟨by rw [Bool.and_eq_true]; exact ⟨hva, hver'⟩, ?_⟩, ?_⟩
              · intro ci' hci' hlt
                exact hallValid ci' (List.mem_cons_of_mem ci hci') hlt
              · rcases hunset with hu | ⟨ci', hci', hcu⟩
                · refine Or.inl ?_
                  rw [Bool.or_eq_true]
                  exact Or.inl hu
                · rcases List.mem_cons.mp hci' with rfl | hmem
                  · unfold chunkHasUnset at hcu
                    rw [if_pos hci] at hcu
                    obtain ⟨pc'', hpc'', b, hb, hbit⟩ := hcu
                    rw [hlook] at hpc''
                    obtain rfl : pc = pc'' := by injection hpc''
                    refine Or.inl ?_
                    rw [Bool.or_eq_true]
                    exact Or.inr (List.any_eq_true.mpr ⟨b, hb, by simpa using hbit⟩)
                  · exact Or.inr ⟨ci', hmem, hcu⟩
      · rw [if_neg hci]
        rw [verifyActiveScan_spec s.swbf_active ws (bitsForChunk bits ci)
          (hbnd ci (List.mem_cons_self ci rest) (Nat.le_of_not_lt hci))]
        obtain ⟨bv, hbv, hiff⟩ :=
          verifyLoop_spec h s dict batch ws bits rest valid
            (unset || (bitsForChunk bits ci).any
              (fun b => ! s.swbf_active (relIndex ws b)))
            (fun ci' hci' => hbnd ci' (List.mem_cons_of_mem ci hci'))
        refine ⟨bv, hbv, hiff.trans ?_⟩
        constructor
        · rintro ⟨⟨hva, hrestValid⟩, hunset⟩
          refine ⟨⟨hva, ?_⟩, ?_⟩
          · intro ci' hci' hlt
            rcases List.mem_cons.mp hci' with rfl | hmem
            · exact absurd hlt hci
            · exact hrestValid ci' hmem hlt
          · rcases hunset with hu | ⟨ci', hci', hcu⟩
            · rw [Bool.or_eq_true] at hu
              rcases hu with hu' | hany'
              · exact Or.inl hu'
              · refine Or.inr ⟨ci, List.mem_cons_self ci rest, ?_⟩
                unfold chunkHasUnset
                rw [if_neg hci]
                obtain ⟨b, hb, hbit⟩ := List.any_eq_true.mp hany'
                exact ⟨b, hb, by simpa using hbit⟩
            · exact Or.inr ⟨ci', List.mem_cons_of_mem ci hci', hcu⟩
        · rintro ⟨⟨hva, hallValid⟩, hunset⟩
          refine ⟨⟨hva, fun ci' hci' hlt =>
            hallValid ci' (List.mem_cons_of_mem ci hci') hlt⟩, ?_⟩
          rcases hunset with hu | ⟨ci', hci', hcu⟩
          · refine Or.inl ?_
            rw [Bool.or_eq_true]
            exact Or.inl hu
          · rcases List.mem_cons.mp hci' with rfl | hmem
            · unfold chunkHasUnset at hcu
              rw [if_neg hci] at hcu
              obtain ⟨b, hb, hbit⟩ := hcu
              refine Or.inl ?_
              rw [Bool.or_eq_true]
              exact Or.inr (List.any_eq_true.mpr ⟨b, hb, by simpa using hbit⟩)
            · exact Or.inr ⟨ci', hmem, hcu⟩

theorem verify_spec {D : Type} [DecidableEq D] (h : Hasher D) (s : SetCommitment D)
    (item : D) (mp : MembershipProof D) (fuel : Nat) (bits : List Nat)
    (hres : resolveBits h item mp fuel = some bits)
    (hbound : ∀ b ∈ bits, currentBatch s ≤ b / CHUNK_SIZE →
      relIndex (windowStart s) b < WINDOW_SIZE) :
    ∃ bv, verify h s item mp fuel = some bv ∧
      (bv = true ↔ specMemberCond h s item mp ∧ specChunksCond h s mp bits ∧
        specUnsetCond s mp bits) := by
  unfold verify
  by_cases hcount : s.aocl.length ≤ mp.auth_path_aocl.data_index
  · rw [if_pos hcount]
    refine ⟨false, rfl, ⟨fun hft => absurd hft (by simp), fun hcontra => ?_⟩⟩
    exact absurd hcontra.1.1 (Nat.not_lt.mpr hcount)
  · rw [if_neg hcount]
    by_cases hmem : mp.auth_path_aocl.verify s.aocl (h.hash_pair item mp.randomness)
        s.aocl.length = true
    · rw [if_pos hmem, hres]
      obtain ⟨bv, hbv, hiff⟩ :=
        verifyLoop_spec h s mp.target_chunks (currentBatch s) (windowStart s) bits
          (chunkIndexList bits) true false
          (by
            intro ci hci hbatch b hb
            obtain ⟨hbbits, hbci⟩ := mem_bitsForChunk.mp hb
            exact hbound b hbbits (hbci ▸ hbatch))
      refine ⟨bv, ?_, ?_⟩
      · show verifyLoop h s mp.target_chunks ((s.aocl.length - 1) / BATCH_SIZE)
          ((s.aocl.length - 1) / BATCH_SIZE * CHUNK_SIZE) bits
          (chunkIndexList bits) true false = some bv
        exact hbv
      · rw [hiff]
        constructor
        · rintro ⟨⟨_, hallValid⟩, hunset⟩
          refine ⟨⟨Nat.lt_of_not_le hcount, hmem⟩, ?_, ?_⟩
          · intro b hb hlt
            exact hallValid (b / CHUNK_SIZE)
              (mem_chunkIndexList.mpr ⟨b, hb, rfl⟩) hlt
          · rcases hunset with hfalse | ⟨ci, _, hcu⟩
            · exact absurd hfalse (by simp)
            · unfold chunkHasUnset at hcu
              by_cases hcib : ci < currentBatch s
              · rw [if_pos hcib] at hcu
                obtain ⟨pc, hlook, b, hbg, hbit⟩ := hcu
                obtain ⟨hbbits, hbci⟩ := mem_bitsForChunk.mp hbg
                refine ⟨b, hbbits, ?_⟩
                rw [if_pos (hbci ▸ hcib)]
                exact ⟨pc, hbci ▸ hlook, hbit⟩
              · rw [if_neg hcib] at hcu
                obtain ⟨b, hbg, hbit⟩ := hcu
                obtain ⟨hbbits, hbci⟩ := mem_bitsForChunk.mp hbg
                refine ⟨b, hbbits, ?_⟩
                rw [if_neg (hbci ▸ hcib)]
                exact hbit
        · rintro ⟨_, hchunks, b, hbbits, hbcond⟩
          refine ⟨⟨rfl, ?_⟩, Or.inr ?_⟩
          · intro ci hci hlt
            obtain ⟨b', hb', rfl⟩ := mem_chunkIndexList.mp hci
            exact hchunks b' hb' hlt
          · refine ⟨b / CHUNK_SIZE, mem_chunkIndexList.mpr ⟨b, hbbits, rfl⟩, ?_⟩
            unfold chunkHasUnset
            by_cases hblt : b / CHUNK_SIZE < currentBatch s
            · rw [if_pos hblt] at hbcond ⊢
              obtain ⟨pc, hlook, hbit⟩ := hbcond
              exact ⟨pc, hlook, b, mem_bitsForChunk.mpr ⟨hbbits, rfl⟩, hbit⟩
            · rw [if_neg hblt] at hbcond ⊢
              exact ⟨b, mem_bitsForChunk.mpr ⟨hbbits, rfl⟩, hbcond⟩
    · rw [if_neg hmem]
      refine ⟨false, rfl, ⟨fun hft => absurd hft (by simp), fun hcontra => ?_⟩⟩
      exact absurd hcontra.1.2 hmem

/-- Claim C5: verify(item, proof) returns true exactly when the three
invariants of specification section 3 hold against the current state: the
AOCL membership condition, the dictionary condition for every derived index
left of the active window, and the existence of an unset derived index.  The
hypotheses fix the resolved (cached or derived) bit indices and keep the
active-window accesses in bounds, which holds automatically for honestly
derived indices. -/
theorem c5_verify_characterization {D : Type} [DecidableEq D] (h : Hasher D)
    (s : SetCommitment D) (item : D) (mp : MembershipProof D) (fuel : Nat)
    (bits : List Nat) (hres : resolveBits h item mp fuel = some bits)
    (hbound : ∀ b ∈ bits, currentBatch s ≤ b / CHUNK_SIZE →
      relIndex (windowStart s) b < WINDOW_SIZE) :
    verify h s item mp fuel = some true ↔
      specMemberCond h s item mp ∧ specChunksCond h s mp bits ∧
        specUnsetCond s mp bits := by
  obtain ⟨bv, hbv, hiff⟩ := verify_spec h s item mp fuel bits hres hbound
  rw [hbv]
  constructor
  · intro hsome
    have : bv = true := by injection hsome
    exact hiff.mp this
  · intro hconds
    rw [hiff.mpr hconds]

theorem add_helper_parts {D : Type} [DecidableEq D] (h : Hasher D) (s : SetCommitment D)
    (r : AdditionRecord D) (s' : SetCommitment D) (copt : Option (Nat × DenseChunk))
    (hadd : add_helper h s r = some (s', copt)) :
    s'.aocl = s.aocl ++ [r.commitment] ∧
      (copt.isSome = true ↔ window_slides s.aocl.length = true) := by
  unfold add_helper at hadd
  by_cases hm : r.has_matching_aocl s.aocl = true
  · rw [if_pos hm] at hadd
    by_cases hw : window_slides s.aocl.length = true
    · rw [if_pos hw] at hadd
      simp only [Option.some.injEq, Prod.mk.injEq] at hadd
      obtain ⟨hs', hcopt⟩ := hadd
      subst hs'
      subst hcopt
      exact ⟨rfl, by simp [hw]⟩
    · rw [if_neg hw] at hadd
      simp only [Option.some.injEq, Prod.mk.injEq] at hadd
      obtain ⟨hs', hcopt⟩ := hadd
      subst hs'
      subst hcopt
      exact ⟨rfl, by simp [hw]⟩
  · rw [if_neg hm] at hadd
    exact absurd hadd (by simp)

theorem relIndex_eq_of_lt {ws b : Nat} (hb : b < ws + WINDOW_SIZE) :
    relIndex ws b = b - ws := by
  unfold relIndex U64MOD
  have hW : WINDOW_SIZE = 30000 := rfl
  have h2 : b - ws < 2 ^ 64 := by
    have h64 : (30000 : Nat) < 2 ^ 64 := by norm_num
    omega
  exact Nat.mod_eq_of_lt h2

theorem relIndex_lt_of_lt {ws b : Nat} (hb : b < ws + WINDOW_SIZE) :
    relIndex ws b < WINDOW_SIZE := by
  rw [relIndex_eq_of_lt hb]
  have hW : (0 : Nat) < WINDOW_SIZE := by decide
  omega

theorem batch_le_div_of_window_start_le {B b : Nat} (hb : B * CHUNK_SIZE ≤ b) :
    B ≤ b / CHUNK_SIZE :=
  (Nat.le_div_iff_mul_le (by decide : 0 < CHUNK_SIZE)).mpr hb

/-- Claim C2, amended: commit, prove, then add yields a proof that verifies
against the post-add state, provided at least one of the item's derived bit
positions is unset in the post-add active window (always the case when no
removal has touched those positions; the counterexample shows a prior
removal can set all of them).  Stated for either value of the store_bits
caching flag. -/
theorem c2_amended {D : Type} [DecidableEq D] (h : Hasher D) (s : SetCommitment D)
    (item randomness : D) (store_bits : Bool) (fuel : Nat) (mp : MembershipProof D)
    (s' : SetCommitment D) (copt : Option (Nat × DenseChunk)) (bits : List Nat)
    (hprove : prove h s item randomness store_bits fuel = some mp)
    (hadd : add_helper h s (commit h s item randomness) = some (s', copt))
    (hbits : get_swbf_indices h item randomness s.aocl.length fuel = some bits)
    (hunset : ∃ b ∈ bits, s'.swbf_active (relIndex (windowStart s') b) = false) :
    verify h s' item mp fuel = some true := by
  obtain ⟨haocl, -⟩ := add_helper_parts h s _ s' copt hadd
  have hlen' : s'.aocl.length = s.aocl.length + 1 := by rw [haocl]; simp
  have hbatch' : currentBatch s' = s.aocl.length / BATCH_SIZE := by
    unfold currentBatch
    rw [hlen']
    simp
  have hws' : windowStart s' = s.aocl.length / BATCH_SIZE * CHUNK_SIZE := by
    unfold windowStart
    rw [hbatch']
  -- unpack the membership proof produced by prove
  have hmp : mp.randomness = randomness ∧ mp.auth_path_aocl = ⟨s.aocl.length⟩ ∧
      mp.target_chunks = [] ∧ resolveBits h item mp fuel = some bits := by
    unfold prove at hprove
    cases store_bits with
    | true =>
        rw [if_pos rfl, hbits] at hprove
        injection hprove with hmp'
        refine ⟨by rw [← hmp'], by rw [← hmp'], by rw [← hmp'], ?_⟩
        unfold resolveBits
        rw [← hmp']
    | false =>
        rw [if_neg (by simp)] at hprove
        injection hprove with hmp'
        refine ⟨by rw [← hmp'], by rw [← hmp'], by rw [← hmp'], ?_⟩
        unfold resolveBits
        rw [← hmp']
        exact hbits
  obtain ⟨hrand, hpath, hchunks, hres⟩ := hmp
  obtain ⟨-, -, hrange⟩ := get_swbf_indices_shape h item randomness s.aocl.length fuel bits hbits
  have hbound : ∀ b ∈ bits, currentBatch s' ≤ b / CHUNK_SIZE →
      relIndex (windowStart s') b < WINDOW_SIZE := by
    intro b hb _
    refine relIndex_lt_of_lt ?_
    rw [hws']
    exact (hrange b hb).2
  obtain ⟨bv, hbv, hiff⟩ := verify_spec h s' item mp fuel bits hres hbound
  have hconds : specMemberCond h s' item mp ∧ specChunksCond h s' mp bits ∧
      specUnsetCond s' mp bits := by
    refine ⟨⟨?_, ?_⟩, ?_, ?_⟩
    · rw [hpath, hlen']
      simp
    · rw [hpath, hrand]
      unfold MmrMembershipProof.verify
      rw [haocl]
      unfold commit
      simp
    · intro b hb hlt
      rw [hbatch'] at hlt
      exact absurd hlt (Nat.not_lt.mpr (batch_le_div_of_window_start_le (hrange b hb).1))
    · obtain ⟨b, hb, hbw⟩ := hunset
      refine ⟨b, hb, ?_⟩
      rw [if_neg ?_]
      · exact hbw
      · rw [hbatch']
        have : s.aocl.length / BATCH_SIZE ≤ b / CHUNK_SIZE :=
          batch_le_div_of_window_start_le (hrange b hb).1
        omega
  rw [hbv, hiff.mpr hconds]

theorem nodupkeys_lookup {α β : Type} [DecidableEq α] [BEq α] [LawfulBEq α] :
    ∀ (l : List (α × β)) (e : α × β), (l.map Prod.fst).Nodup → e ∈ l →
      l.lookup e.1 = some e.2
  | f :: rest, e, hnd, hmem => by
      rw [List.map_cons, List.nodup_cons] at hnd
      rcases List.mem_cons.mp hmem with rfl | hmem'
      · unfold List.lookup
        simp
      · unfold List.lookup
        have hne : (e.1 == f.1) = false := by
          rw [beq_eq_false_iff_ne]
          intro hcontra
          exact hnd.1 (hcontra ▸ List.mem_map.mpr ⟨e, hmem', rfl⟩)
        rw [hne]
        exact nodupkeys_lookup rest e hnd.2 hmem'

theorem lookup_mem {α β : Type} [BEq α] [LawfulBEq α] :
    ∀ (l : List (α × β)) (a : α) (b : β), l.lookup a = some b → (a, b) ∈ l
  | f :: rest, a, b, hl => by
      unfold List.lookup at hl
      cases hab : a == f.1 with
      | true =>
          rw [hab] at hl
          obtain rfl : f.2 = b := by injection hl
          obtain rfl : a = f.1 := eq_of_beq hab
          exact List.mem_cons_self f rest
      | false =>
          rw [hab] at hl
          exact List.mem_cons_of_mem f (lookup_mem rest a b hl)

theorem setBit_getBit_self (c : DenseChunk) (i : Nat) :
    (c.setBit i).getBit i = true := by
  unfold DenseChunk.setBit DenseChunk.getBit
  rw [Nat.testBit_lor, Nat.shiftLeft_eq, one_mul, Nat.testBit_two_pow_self]
  simp

theorem setBit_getBit_mono {c : DenseChunk} {i j : Nat} (hc : c.getBit i = true) :
    (c.setBit j).getBit i = true := by
  unfold DenseChunk.getBit at hc ⊢
  unfold DenseChunk.setBit
  rw [Nat.testBit_lor, hc]
  simp

theorem setBitsInChunk_getBit_mono :
    ∀ (bs : List Nat) (c : DenseChunk) (i : Nat), c.getBit i = true →
      (setBitsInChunk c bs).getBit i = true
  | [], _, _, hc => hc
  | b :: bs, c, i, hc =>
      setBitsInChunk_getBit_mono bs (c.setBit (b % CHUNK_SIZE)) i (setBit_getBit_mono hc)

theorem setBitsInChunk_getBit_self :
    ∀ (bs : List Nat) (c : DenseChunk) (b : Nat), b ∈ bs →
      (setBitsInChunk c bs).getBit (b % CHUNK_SIZE) = true
  | b0 :: bs, c, b, hb => by
      rcases List.mem_cons.mp hb with rfl | hmem
      · exact setBitsInChunk_getBit_mono bs _ _ (setBit_getBit_self c (b % CHUNK_SIZE))
      · exact setBitsInChunk_getBit_self bs _ b hmem

theorem removeActiveScanSet_spec (ws : Nat) :
    ∀ (group : List Nat) (active active' : Nat → Bool),
      removeActiveScanSet ws active group = some active' →
      (∀ b ∈ group, relIndex ws b < WINDOW_SIZE ∧ active' (relIndex ws b) = true) ∧
      (∀ i, active i = true → active' i = true)
  | [], active, active', hscan => by
      obtain rfl : active = active' := by injection hscan
      exact ⟨fun b hb => absurd hb (List.not_mem_nil b), fun i hi => hi⟩
  | b :: bs, active, active', hscan => by
      unfold removeActiveScanSet at hscan
      by_cases hrel : relIndex ws b < WINDOW_SIZE
      · rw [if_pos hrel] at hscan
        obtain ⟨hrest, hmono⟩ := removeActiveScanSet_spec ws bs _ active' hscan
        refine ⟨?_, ?_⟩
        · intro b' hb'
          rcases List.mem_cons.mp hb' with rfl | hmem
          · exact ⟨hrel, hmono _ (by simp)⟩
          · exact hrest b' hmem
        · intro i hi
          refine hmono i ?_
          by_cases hieq : i = relIndex ws b <;> simp [hieq, hi]
      · rw [if_neg hrel] at hscan
        exact absurd hscan (by simp)

theorem removeChunksPhase_spec {D : Type} (batch ws : Nat) (bits : List Nat) :
    ∀ (cis : List Nat) (active : Nat → Bool) (dict : ChunkDictionary D)
      (active' : Nat → Bool) (dict' : ChunkDictionary D),
      removeChunksPhase batch ws bits cis active dict = some (active', dict') →
      cis.Nodup → (dict.map Prod.fst).Nodup →
      dict' = dict.map (updEntry batch bits cis) ∧
      (∀ b ∈ bits, b / CHUNK_SIZE ∈ cis → batch ≤ b / CHUNK_SIZE →
        relIndex ws b < WINDOW_SIZE ∧ active' (relIndex ws b) = true) ∧
      (∀ i, active i = true → active' i = true)
  | [], active, dict, active', dict', hphase, _, _ => by
      obtain ⟨h1, h2⟩ : active = active' ∧ dict = dict' := by
        unfold removeChunksPhase at hphase
        simp only [Option.some.injEq, Prod.mk.injEq] at hphase
        exact hphase
      subst h1
      subst h2
      refine ⟨?_, fun b _ hb _ => absurd hb (List.not_mem_nil _), fun i hi => hi⟩
      rw [List.map_congr_left fun e _ => ?_, List.map_id]
      unfold updEntry
      rw [if_neg (by simp)]
      rfl
  | ci :: rest, active, dict, active', dict', hphase, hcnd, hknd => by
      rw [List.nodup_cons] at hcnd
      unfold removeChunksPhase at hphase
      by_cases hci : batch ≤ ci
      · rw [if_pos hci] at hphase
        cases hscan : removeActiveScanSet ws active (bitsForChunk bits ci) with
        | none => rw [hscan] at hphase; exact absurd hphase (by simp)
        | some active1 =>
            rw [hscan] at hphase
            obtain ⟨hdict, hact, hmono⟩ :=
              removeChunksPhase_spec batch ws bits rest active1 dict active' dict'
                hphase hcnd.2 hknd
            obtain ⟨hscan1, hscanmono⟩ := removeActiveScanSet_spec ws _ active active1 hscan
            refine ⟨?_, ?_, fun i hi => hmono i (hscanmono i hi)⟩
            · rw [hdict]
              refine List.map_congr_left fun e _ => ?_
              unfold updEntry
              by_cases hec : e.1 = ci
              · rw [if_neg (by omega), if_neg ?_]
                intro hcontra
                rcases List.mem_cons.mp hcontra.2 with heq | hmem
                · omega
                · rw [hec] at hcontra
                  omega
              · by_cases hmem : e.1 < batch ∧ e.1 ∈ rest
                · rw [if_pos hmem, if_pos ⟨hmem.1, List.mem_cons_of_mem ci hmem.2⟩]
                · rw [if_neg hmem, if_neg ?_]
                  intro hcontra
                  rcases List.mem_cons.mp hcontra.2 with heq | hmem'
                  · exact hec heq
                  · exact hmem ⟨hcontra.1, hmem'⟩
            · intro b hb hmem hbatch
              rcases List.mem_cons.mp hmem with heq | hmem'
              · obtain ⟨hrel, hset⟩ :=
                  hscan1 b (mem_bitsForChunk.mpr ⟨hb, heq⟩)
                exact ⟨hrel, hmono _ hset⟩
              · exact hact b hb hmem' hbatch
      · rw [if_neg hci] at hphase
        cases hlook : dict.lookup ci with
        | none => rw [hlook] at hphase; exact absurd hphase (by simp)
        | some pc =>
            rw [hlook] at hphase
            have hkeys1 : ((dict.map fun e =>
                if e.1 = ci then (e.1, e.2.1, setBitsInChunk pc.2 (bitsForChunk bits ci))
                else e).map Prod.fst) = dict.map Prod.fst := by
              rw [List.map_map]
              refine List.map_congr_left fun e _ => ?_
              by_cases hec : e.1 = ci <;> simp [hec]
            obtain ⟨hdict, hact, hmono⟩ :=
              removeChunksPhase_spec batch ws bits rest active _ active' dict'
                hphase hcnd.2 (by rw [hkeys1]; exact hknd)
            refine ⟨?_, ?_, hmono⟩
            · rw [hdict, List.map_map]
              refine List.map_congr_left fun e he => ?_
              show updEntry batch bits rest
                (if e.1 = ci then (e.1, e.2.1, setBitsInChunk pc.2 (bitsForChunk bits ci))
                  else e) = updEntry batch bits (ci :: rest) e
              by_cases hec : e.1 = ci
              · rw [if_pos hec]
                have hepc : e.2 = pc := by
                  have h2 := nodupkeys_lookup dict e hknd he
                  rw [hec, hlook] at h2
                  injection h2 with h3
                  exact h3.symm
                unfold updEntry
                rw [if_neg ?_, if_pos ⟨by omega, hec ▸ List.mem_cons_self ci rest⟩]
                · rw [hec, ← hepc]
                · intro hcontra
                  exact hcnd.1 (by simpa [hec] using hcontra.2)
              · rw [if_neg hec]
                unfold updEntry
                by_cases hmem : e.1 < batch ∧ e.1 ∈ rest
                · rw [if_pos hmem, if_pos ⟨hmem.1, List.mem_cons_of_mem ci hmem.2⟩]
                · rw [if_neg hmem, if_neg ?_]
                  intro hcontra
                  rcases List.mem_cons.mp hcontra.2 with heq | hmem'
                  · exact hec heq
                  · exact hmem ⟨hcontra.1, hmem'⟩
            · intro b hb hmem hbatch
              rcases List.mem_cons.mp hmem with heq | hmem'
              · omega
              · exact hact b hb hmem' hbatch

theorem swbfFold_length {D : Type} (h : Hasher D) :
    ∀ (dict : ChunkDictionary D) (m : List D),
      (dict.foldl (fun acc e => acc.set e.2.1.data_index (h.hash_chunk e.2.2)) m).length
        = m.length
  | [], _ => rfl
  | e :: rest, m => by
      show (rest.foldl _ (m.set e.2.1.data_index (h.hash_chunk e.2.2))).length = m.length
      rw [swbfFold_length h rest _, List.length_set]

theorem swbfFold_get_of_ne {D : Type} (h : Hasher D) :
    ∀ (dict : ChunkDictionary D) (m : List D) (d : Nat),
      (∀ e ∈ dict, e.2.1.data_index ≠ d) →
      (dict.foldl (fun acc e => acc.set e.2.1.data_index (h.hash_chunk e.2.2)) m)[d]?
        = m[d]?
  | [], _, _, _ => rfl
  | e :: rest, m, d, hne => by
      show (rest.foldl _ (m.set e.2.1.data_index (h.hash_chunk e.2.2)))[d]? = m[d]?
      rw [swbfFold_get_of_ne h rest _ d (fun e' he' => hne e' (List.mem_cons_of_mem e he')),
        List.getElem?_set_ne (hne e (List.mem_cons_self e rest))]

theorem swbfFold_get {D : Type} (h : Hasher D) :
    ∀ (dict : ChunkDictionary D) (m : List D),
      ((dict.map fun e => e.2.1.data_index).Nodup) →
      ∀ e ∈ dict, e.2.1.data_index < m.length →
        (dict.foldl (fun acc e' => acc.set e'.2.1.data_index (h.hash_chunk e'.2.2)) m)[e.2.1.data_index]?
          = some (h.hash_chunk e.2.2)
  | e0 :: rest, m, hnd, e, hmem, hlt => by
      rw [List.map_cons, List.nodup_cons] at hnd
      show (rest.foldl _ (m.set e0.2.1.data_index (h.hash_chunk e0.2.2)))[e.2.1.data_index]?
        = some (h.hash_chunk e.2.2)
      rcases List.mem_cons.mp hmem with rfl | hmem'
      · rw [swbfFold_get_of_ne h rest _ _ ?_, List.getElem?_set_self hlt]
        intro e' he' hcontra
        exact hnd.1 (hcontra ▸ List.mem_map.mpr ⟨e', he', rfl⟩)
      · exact swbfFold_get h rest _ hnd.2 e hmem' (by rw [List.length_set]; exact hlt)

/-- Claim C3, amended: for an item whose membership proof currently
verifies, drop followed by remove makes verify return false, provided the
proof's chunk dictionary is well formed (each entry's MMR leaf index equals
its chunk index, and chunk indices are not duplicated, the ChunkDictionary
invariants of specification section 3) and chunk hashing is collision free.
Without the well-formedness hypotheses a verifying proof exists that still
verifies after the removal (see the counterexample). -/
theorem c3_amended {D : Type} [DecidableEq D] (h : Hasher D) (s : SetCommitment D)
    (item : D) (mp : MembershipProof D) (fuel : Nat) (rr : RemovalRecord D)
    (s' : SetCommitment D) (ret : List (Nat × DenseChunk))
    (hinj : Function.Injective h.hash_chunk)
    (hwf : ∀ e ∈ mp.target_chunks, e.2.1.data_index = e.1)
    (hnodup : (mp.target_chunks.map Prod.fst).Nodup)
    (hpre : verify h s item mp fuel = some true)
    (hdrop : drop h s item mp fuel = some rr)
    (hrem : remove_helper h s rr = some (s', ret)) :
    verify h s' item mp fuel = some false := by
  -- rr is the resolved bit indices together with the proof's own chunks
  have hdropfacts : resolveBits h item mp fuel = some rr.bit_indices ∧
      rr.target_chunks = mp.target_chunks := by
    unfold drop at hdrop
    cases hr : resolveBits h item mp fuel with
    | none => rw [hr] at hdrop; exact absurd hdrop (by simp)
    | some bits0 =>
        rw [hr] at hdrop
        injection hdrop with h1
        exact ⟨by rw [← h1], by rw [← h1]⟩
  obtain ⟨hresolve, hrrchunks⟩ := hdropfacts
  -- unpack remove_helper
  unfold remove_helper at hrem
  by_cases hzero : s.aocl.length = 0
  · rw [if_pos hzero] at hrem; exact absurd hrem (by simp)
  rw [if_neg hzero] at hrem
  dsimp only at hrem
  cases hphase : removeChunksPhase ((s.aocl.length - 1) / BATCH_SIZE)
      ((s.aocl.length - 1) / BATCH_SIZE * CHUNK_SIZE) rr.bit_indices
      (chunkIndexList rr.bit_indices) s.swbf_active rr.target_chunks with
  | none => rw [hphase] at hrem; exact absurd hrem (by simp)
  | some p =>
      obtain ⟨active', dict'⟩ := p
      rw [hphase] at hrem
      simp only [Option.some.injEq, Prod.mk.injEq] at hrem
      obtain ⟨hs', -⟩ := hrem
      obtain ⟨hdict, hact, -⟩ :=
        removeChunksPhase_spec ((s.aocl.length - 1) / BATCH_SIZE)
          ((s.aocl.length - 1) / BATCH_SIZE * CHUNK_SIZE) rr.bit_indices
          (chunkIndexList rr.bit_indices) s.swbf_active rr.target_chunks active' dict'
          hphase (List.nodup_dedup _) (by rw [hrrchunks]; exact hnodup)
      -- bounds for the verify characterization, identical before and after
      have hbound : ∀ b ∈ rr.bit_indices, currentBatch s ≤ b / CHUNK_SIZE →
          relIndex (windowStart s) b < WINDOW_SIZE := by
        intro b hb hbatch
        exact (hact b hb (mem_chunkIndexList.mpr ⟨b, hb, rfl⟩) hbatch).1
      -- pre-state characterization
      obtain ⟨bvPre, hbvPre, hiffPre⟩ := verify_spec h s item mp fuel rr.bit_indices
        hresolve hbound
      rw [hbvPre] at hpre
      obtain ⟨-, hchunksPre, -⟩ := hiffPre.mp (by injection hpre)
      -- post state
      subst hs'
      obtain ⟨bv, hbv, hiff⟩ := verify_spec h
        ⟨s.aocl,
          dict'.foldl (fun m e => m.set e.2.1.data_index (h.hash_chunk e.2.2))
            s.swbf_inactive,
          active'⟩
        item mp fuel rr.bit_indices hresolve hbound
      cases bv with
      | false => exact hbv
      | true =>
          exfalso
          obtain ⟨-, hchunks', hunset'⟩ := hiff.mp rfl
          obtain ⟨b, hb, hcase⟩ := hunset'
          simp only [currentBatch, windowStart] at hcase
          have hmemcis : b / CHUNK_SIZE ∈ chunkIndexList rr.bit_indices :=
            mem_chunkIndexList.mpr ⟨b, hb, rfl⟩
          by_cases hbci : b / CHUNK_SIZE < (s.aocl.length - 1) / BATCH_SIZE
          · -- archived chunk: the mutated leaf no longer matches the stale chunk
            rw [if_pos hbci] at hcase
            obtain ⟨pc, hlook, hbit⟩ := hcase
            have hmementry : (b / CHUNK_SIZE, pc) ∈ mp.target_chunks :=
              lookup_mem _ _ _ hlook
            have hd : pc.1.data_index = b / CHUNK_SIZE := hwf _ hmementry
            -- pre-state auth path gives the leaf index bound
            obtain ⟨pcPre, hlookPre, hverPre⟩ := hchunksPre b hb hbci
            obtain rfl : pc = pcPre := by
              rw [hlook] at hlookPre
              injection hlookPre
            unfold MmrMembershipProof.verify at hverPre
            rw [Bool.and_eq_true, decide_eq_true_eq, decide_eq_true_eq] at hverPre
            have hltlen : pc.1.data_index < s.swbf_inactive.length := by
              rcases List.getElem?_eq_some.mp hverPre.2 with ⟨hlt, -⟩
              exact hlt
            -- the fold wrote the updated chunk digest at that leaf index
            have hdnd : (dict'.map fun e => e.2.1.data_index).Nodup := by
              rw [hdict, List.map_map]
              have heq : (rr.target_chunks.map ((fun e => e.2.1.data_index) ∘
                  updEntry ((s.aocl.length - 1) / BATCH_SIZE) rr.bit_indices
                    (chunkIndexList rr.bit_indices))) = rr.target_chunks.map Prod.fst := by
                refine List.map_congr_left fun e he => ?_
                show (updEntry _ _ _ e).2.1.data_index = e.1
                unfold updEntry
                by_cases hcond : e.1 < (s.aocl.length - 1) / BATCH_SIZE ∧
                    e.1 ∈ chunkIndexList rr.bit_indices
                · rw [if_pos hcond]
                  exact hwf e (hrrchunks ▸ he)
                · rw [if_neg hcond]
                  exact hwf e (hrrchunks ▸ he)
              rw [heq, hrrchunks]
              exact hnodup
            have hmem' : updEntry ((s.aocl.length - 1) / BATCH_SIZE) rr.bit_indices
                (chunkIndexList rr.bit_indices) (b / CHUNK_SIZE, pc) ∈ dict' := by
              rw [hdict]
              exact List.mem_map.mpr ⟨(b / CHUNK_SIZE, pc), hrrchunks ▸ hmementry, rfl⟩
            have hupd : updEntry ((s.aocl.length - 1) / BATCH_SIZE) rr.bit_indices
                (chunkIndexList rr.bit_indices) (b / CHUNK_SIZE, pc) =
                (b / CHUNK_SIZE, pc.1,
                  setBitsInChunk pc.2 (bitsForChunk rr.bit_indices (b / CHUNK_SIZE))) := by
              unfold updEntry
              rw [if_pos ⟨hbci, hmemcis⟩]
            rw [hupd] at hmem'
            have hfold := swbfFold_get h dict' s.swbf_inactive hdnd _ hmem'
              (by show pc.1.data_index < _; exact hltlen)
            -- post-state auth path check for this chunk
            obtain ⟨pc2, hlook2, hver2⟩ := hchunks' b hb hbci
            obtain rfl : pc = pc2 := by
              rw [hlook] at hlook2
              injection hlook2
            unfold MmrMembershipProof.verify at hver2
            rw [Bool.and_eq_true, decide_eq_true_eq, decide_eq_true_eq] at hver2
            have hgetpost := hver2.2
            rw [show ((b / CHUNK_SIZE, pc.1,
                setBitsInChunk pc.2 (bitsForChunk rr.bit_indices (b / CHUNK_SIZE))) :
                Nat × MmrMembershipProof × DenseChunk).2.1.data_index = pc.1.data_index
              from rfl] at hfold
            rw [hfold] at hgetpost
            have hchunkeq : setBitsInChunk pc.2 (bitsForChunk rr.bit_indices (b / CHUNK_SIZE))
                = pc.2 := by
              refine hinj ?_
              injection hgetpost
            have hset : (setBitsInChunk pc.2
                (bitsForChunk rr.bit_indices (b / CHUNK_SIZE))).getBit (b % CHUNK_SIZE)
                = true :=
              setBitsInChunk_getBit_self _ pc.2 b (mem_bitsForChunk.mpr ⟨hb, rfl⟩)
            rw [hchunkeq, hbit] at hset
            exact absurd hset (by simp)
          · -- active window: the removal set this exact bit
            rw [if_neg hbci] at hcase
            have hset := (hact b hb hmemcis (Nat.le_of_not_lt hbci)).2
            have hcase' : active' (relIndex ((s.aocl.length - 1) / BATCH_SIZE * CHUNK_SIZE) b)
                = false := hcase
            rw [hset] at hcase'
            exact absurd hcase' (by simp)

theorem add_helper_lengths {D : Type} [DecidableEq D] (h : Hasher D) (s : SetCommitment D)
    (r : AdditionRecord D) (s' : SetCommitment D) (copt : Option (Nat × DenseChunk))
    (hadd : add_helper h s r = some (s', copt)) :
    s'.aocl.length = s.aocl.length + 1 ∧
      s'.swbf_inactive.length
        = s.swbf_inactive.length + (if window_slides s.aocl.length = true then 1 else 0) := by
  unfold add_helper at hadd
  by_cases hm : r.has_matching_aocl s.aocl = true
  · rw [if_pos hm] at hadd
    by_cases hw : window_slides s.aocl.length = true
    · rw [if_pos hw] at hadd
      simp only [Option.some.injEq, Prod.mk.injEq] at hadd
      obtain ⟨hs', -⟩ := hadd
      subst hs'
      rw [if_pos hw]
      constructor <;> simp
    · rw [if_neg hw] at hadd
      simp only [Option.some.injEq, Prod.mk.injEq] at hadd
      obtain ⟨hs', -⟩ := hadd
      subst hs'
      rw [if_neg hw]
      constructor <;> simp
  · rw [if_neg hm] at hadd
    exact absurd hadd (by simp)

theorem remove_helper_lengths {D : Type} (h : Hasher D) (s : SetCommitment D)
    (rr : RemovalRecord D) (s' : SetCommitment D) (ret : List (Nat × DenseChunk))
    (hrem : remove_helper h s rr = some (s', ret)) :
    s'.aocl = s.aocl ∧ s'.swbf_inactive.length = s.swbf_inactive.length := by
  unfold remove_helper at hrem
  by_cases hzero : s.aocl.length = 0
  · rw [if_pos hzero] at hrem; exact absurd hrem (by simp)
  rw [if_neg hzero] at hrem
  dsimp only at hrem
  cases hphase : removeChunksPhase ((s.aocl.length - 1) / BATCH_SIZE)
      ((s.aocl.length - 1) / BATCH_SIZE * CHUNK_SIZE) rr.bit_indices
      (chunkIndexList rr.bit_indices) s.swbf_active rr.target_chunks with
  | none => rw [hphase] at hrem; exact absurd hrem (by simp)
  | some p =>
      obtain ⟨active', dict'⟩ := p
      rw [hphase] at hrem
      simp only [Option.some.injEq, Prod.mk.injEq] at hrem
      obtain ⟨hs', -⟩ := hrem
      subst hs'
      exact ⟨rfl, swbfFold_length h dict' s.swbf_inactive⟩

theorem reachable_swbf_inactive_length {D : Type} [DecidableEq D] (h : Hasher D)
    (s : SetCommitment D) (hr : Reachable h s) :
    s.swbf_inactive.length
      = if s.aocl.length = 0 then 0 else (s.aocl.length - 1) / BATCH_SIZE := by
  induction hr with
  | init => simp [SetCommitment.default]
  | add_step hprev hadd ih =>
      rename_i s0 s1 r copt
      obtain ⟨hlen, hswbf⟩ := add_helper_lengths h s0 r s1 copt hadd
      rw [hswbf, ih, hlen]
      unfold window_slides
      have hB : BATCH_SIZE = 10 := rfl
      rw [hB]
      by_cases h0 : s0.aocl.length = 0
      · rw [if_pos h0, h0]
        norm_num
      · rw [if_neg h0]
        by_cases hmod : s0.aocl.length % 10 = 0
        · rw [if_pos (by simp [h0, hmod]), if_neg (by omega)]
          omega
        · rw [if_neg (by simp [hmod]), if_neg (by omega)]
          omega
  | remove_step hprev hrem ih =>
      rename_i s0 s1 rr ret
      obtain ⟨haocl, hswbf⟩ := remove_helper_lengths h s0 rr s1 ret hrem
      rw [hswbf, ih, haocl]

/-- Claim C4, amended: in every reachable state with at least one addition
the SWBF-inactive MMR holds exactly (n - 1) / BATCH_SIZE archived chunks,
where n is the AOCL leaf count; this quantity is currentBatch, the batch
index against which verify (set_commitment.rs line 326) and remove_helper
(line 208) decide whether a derived bit index lies in the active window,
whose first absolute bit position is currentBatch * CHUNK_SIZE.  The claim's
boundary floor(n / BATCH_SIZE) is off by one (see the counterexample). -/
theorem c4_amended {D : Type} [DecidableEq D] (h : Hasher D) (s : SetCommitment D)
    (hr : Reachable h s) (hpos : 0 < s.aocl.length) :
    s.swbf_inactive.length = currentBatch s ∧
      windowStart s = currentBatch s * CHUNK_SIZE := by
  refine ⟨?_, rfl⟩
  rw [reachable_swbf_inactive_length h s hr, if_neg (by omega)]
  rfl

/-- Claim C7: add_helper fails fatally (panics) exactly when the record's
AOCL snapshot does not match the current AOCL; when it matches, add appends
the record's commitment to the AOCL, growing it by exactly one leaf, and
archives a chunk exactly when the slide rule window_slides fires on the
pre-add leaf count. -/
theorem c7_add_precondition {D : Type} [DecidableEq D] (h : Hasher D)
    (s : SetCommitment D) (r : AdditionRecord D) :
    (add_helper h s r = none ↔ r.has_matching_aocl s.aocl = false)
    ∧ (r.has_matching_aocl s.aocl = true →
        ∃ s' copt, add_helper h s r = some (s', copt) ∧
          s'.aocl = s.aocl ++ [r.commitment] ∧
          s'.aocl.length = s.aocl.length + 1 ∧
          (copt.isSome = true ↔ window_slides s.aocl.length = true)) := by
  constructor
  · unfold add_helper
    by_cases hm : r.has_matching_aocl s.aocl = true
    · rw [if_pos hm, hm]
      by_cases hw : window_slides s.aocl.length = true
      · rw [if_pos hw]
        simp
      · rw [if_neg hw]
        simp
    · rw [if_neg hm]
      simp [Bool.eq_false_iff.mpr hm]
  · intro hm
    unfold add_helper
    rw [if_pos hm]
    by_cases hw : window_slides s.aocl.length = true
    · rw [if_pos hw]
      refine ⟨_, _, rfl, rfl, by simp, by simp [hw]⟩
    · rw [if_neg hw]
      refine ⟨_, _, rfl, rfl, by simp, by simp [hw]⟩

set_option maxRecDepth 40000

/-- Claim C1, amended: the window slides during the n-th addition (pre-add
AOCL leaf count n - 1) iff (n - 1) % BATCH_SIZE == 0 and n - 1 is not zero,
i.e. in the 11th, 21st, ... addition, not the 10th; accordingly, after
inserting BATCH_SIZE + 1 = 11 items into an empty set commitment, the
SWBF-inactive MMR has exactly one leaf, the digest of the all-zero chunk
(bitmask 0), and the active window is all zero.  After only BATCH_SIZE
additions no slide has occurred (see the counterexample). -/
theorem c1_amended :
    (∀ (D : Type) [DecidableEq D] (h : Hasher D) (s s' : SetCommitment D)
        (r : AdditionRecord D) (copt : Option (Nat × DenseChunk)),
        add_helper h s r = some (s', copt) →
        (copt.isSome = true ↔
          s.aocl.length % BATCH_SIZE = 0 ∧ s.aocl.length ≠ 0))
    ∧ (addItems natHasher (SetCommitment.default Nat)
          (List.replicate (BATCH_SIZE + 1) (5, 7)) = some (addTrace 11) ∧
        (addTrace 11).swbf_inactive = [natHasher.hash_chunk 0] ∧
        ∀ i, (addTrace 11).swbf_active i = false) := by
  constructor
  · intro D _ h s s' r copt hadd
    obtain ⟨-, hslide⟩ := add_helper_parts h s r s' copt hadd
    rw [hslide]
    unfold window_slides
    rw [Bool.and_eq_true, decide_eq_true_eq, decide_eq_true_eq]
    tauto
  · refine ⟨rfl, by decide, ?_⟩
    intro i
    show (if i < WINDOW_SIZE - CHUNK_SIZE then false else false) = false
    exact ite_self false

/-- Claim C8, amended: commit is total by construction; prove without bit
caching always succeeds and never touches the state; drop succeeds whenever
the bit indices resolve (cached or derived); verify against an accumulator
whose AOCL leaf count is at most the proof's leaf index returns false
rather than failing; and verify completes without failure whenever the
resolved bit indices address the active window within bounds, which holds
automatically for honestly derived indices.  An adversarial cached index at
or beyond the window's end makes the Rust code index swbf_active out of
bounds (see the counterexample), so the unconditional claim fails. -/
theorem c8_amended {D : Type} [DecidableEq D] (h : Hasher D) :
    (∀ (s : SetCommitment D) (item randomness : D),
        commit h s item randomness = ⟨h.hash_pair item randomness, s.aocl⟩)
    ∧ (∀ (s : SetCommitment D) (item randomness : D) (fuel : Nat),
        prove h s item randomness false fuel
          = some ⟨randomness, ⟨s.aocl.length⟩, [], none⟩)
    ∧ (∀ (s : SetCommitment D) (item : D) (mp : MembershipProof D) (fuel : Nat)
        (bits : List Nat), resolveBits h item mp fuel = some bits →
        drop h s item mp fuel = some ⟨bits, mp.target_chunks⟩)
    ∧ (∀ (s : SetCommitment D) (item : D) (mp : MembershipProof D) (fuel : Nat),
        s.aocl.length ≤ mp.auth_path_aocl.data_index →
        verify h s item mp fuel = some false)
    ∧ (∀ (s : SetCommitment D) (item : D) (mp : MembershipProof D) (fuel : Nat)
        (bits : List Nat), resolveBits h item mp fuel = some bits →
        (∀ b ∈ bits, currentBatch s ≤ b / CHUNK_SIZE →
          relIndex (windowStart s) b < WINDOW_SIZE) →
        ∃ bv, verify h s item mp fuel = some bv) := by
  refine ⟨fun s item randomness => rfl, ?_, ?_, ?_, ?_⟩
  · intro s item randomness fuel
    unfold prove
    rw [if_neg (by simp)]
  · intro s item mp fuel bits hres
    unfold drop
    rw [hres]
  · intro s item mp fuel hle
    unfold verify
    rw [if_pos hle]
  · intro s item mp fuel bits hres hbound
    obtain ⟨bv, hbv, -⟩ := verify_spec h s item mp fuel bits hres hbound
    exact ⟨bv, hbv⟩

/-- Claim C9: the code is wrong.  Chunk::is_unset tests that every stored
position equals the number zero instead of testing emptiness of the sparse
position list, so the chunk obtained by set_bit(0) on the empty chunk (which
has bit 0 set: get_bit(0) returns true) still reports is_unset() == true,
contradicting the claimed equivalence with all bits being unset. -/
theorem c9_is_unset_code_bug :
    Chunk.empty_chunk.set_bit 0 = some ⟨[0]⟩ ∧
    Chunk.is_unset ⟨[0]⟩ = true ∧
    Chunk.get_bit (⟨[0]⟩ : Chunk) 0 = some true :=
  ⟨by decide, by decide, by decide⟩

/-- Claim C10: for any sparse chunk and in-range indices, set_bit(i) makes
get_bit(i) true, unset_bit(i) makes get_bit(i) false (all stored copies of i
are removed, so this holds even when i was stored multiple times), and both
operations leave every other in-range index j unchanged. -/
theorem c10_chunk_bit_laws (c : Chunk) (i j : Nat) (hi : i < CHUNK_SIZE)
    (hj : j < CHUNK_SIZE) (hij : j ≠ i) :
    ∃ cs cu, c.set_bit i = some cs ∧ c.unset_bit i = some cu ∧
      cs.get_bit i = some true ∧ cu.get_bit i = some false ∧
      cs.get_bit j = c.get_bit j ∧ cu.get_bit j = c.get_bit j := by
  refine ⟨⟨List.insertionSort (· ≤ ·) (c.bits ++ [i])⟩,
    ⟨c.bits.filter (fun x => decide (x ≠ i))⟩,
    by unfold Chunk.set_bit; rw [if_pos hi],
    by unfold Chunk.unset_bit; rw [if_pos hi], ?_, ?_, ?_, ?_⟩
  · unfold Chunk.get_bit
    rw [if_pos hi]
    congr 1
    rw [decide_eq_true_eq]
    exact (List.perm_insertionSort (· ≤ ·) (c.bits ++ [i])).mem_iff.mpr
      (List.mem_append.mpr (Or.inr (List.mem_singleton.mpr rfl)))
  · unfold Chunk.get_bit
    rw [if_pos hi]
    congr 1
    rw [decide_eq_false_iff_not]
    intro hcontra
    obtain ⟨-, hne⟩ := List.mem_filter.mp hcontra
    rw [decide_eq_true_eq] at hne
    exact hne rfl
  · unfold Chunk.get_bit
    rw [if_pos hj, if_pos hj]
    congr 1
    rw [decide_eq_decide]
    rw [(List.perm_insertionSort (· ≤ ·) (c.bits ++ [i])).mem_iff, List.mem_append,
      List.mem_singleton]
    constructor
    · rintro (hmem | rfl)
      · exact hmem
      · exact absurd rfl hij
    · exact Or.inl
  · unfold Chunk.get_bit
    rw [if_pos hj, if_pos hj]
    congr 1
    rw [decide_eq_decide, List.mem_filter]
    constructor
    · rintro ⟨hmem, -⟩
      exact hmem
    · intro hmem
      exact ⟨hmem, by rw [decide_eq_true_eq]; exact hij⟩

/-- Claim C1 counterexample: after inserting exactly BATCH_SIZE = 10 items
into an empty set commitment the SWBF-inactive MMR has 0 leaves, not 1: no
window slide has occurred yet (the first slide happens during the 11th
addition). -/
theorem c1_counterexample :
    addItems natHasher (SetCommitment.default Nat) (List.replicate BATCH_SIZE (5, 7))
      = some (addTrace 10) ∧
    (addTrace 10).swbf_inactive.length = 0 ∧
    (addTrace 10).swbf_inactive.length ≠ 1 :=
  ⟨rfl, rfl, by decide⟩

/-- Claim C1 amended witness. -/
theorem c1_amended_witness :
    ((none : Option (Nat × DenseChunk)).isSome = true ↔
      ((SetCommitment.default Nat).aocl.length % BATCH_SIZE = 0 ∧
        (SetCommitment.default Nat).aocl.length ≠ 0)) :=
  c1_amended.1 Nat natHasher (SetCommitment.default Nat) (addTrace 1)
    (commit natHasher (SetCommitment.default Nat) 5 7) none rfl

/-- Claim C2 counterexample: on the reachable state obtained by adding item
5 and removing it again (which sets all of the active-window bit positions
that item 6 also derives, since the sampler gives both items in batch 0 the
same index set), the sequence commit; prove; add for item 6 yields a proof
that verify rejects: a Bloom-filter false positive. -/
theorem c2_counterexample :
    verify natHasher (addTrace 1) 5 mp0 0 = some true ∧
    drop natHasher (addTrace 1) 5 mp0 0 = some rr0 ∧
    remove_helper natHasher (addTrace 1) rr0 = some (sAfterRemove, []) ∧
    prove natHasher sAfterRemove 6 8 false 0 = some mpB ∧
    add_helper natHasher sAfterRemove (commit natHasher sAfterRemove 6 8)
      = some (sB, none) ∧
    verify natHasher sB 6 mpB 0 = some false :=
  ⟨by decide, rfl, rfl, rfl, rfl, by decide⟩

/-- Claim C2 amended witness. -/
theorem c2_amended_witness :
    verify natHasher (addTrace 1) 5 mp0 0 = some true :=
  c2_amended natHasher (SetCommitment.default Nat) 5 7 false 0 mp0 (addTrace 1) none
    c2bits rfl rfl rfl (by decide)

/-- Claim C3 counterexample: a membership proof that verifies against the
21-addition state, whose dictionary entry for chunk 1 points at MMR leaf 0
(well-formedness violation; the two archived chunks are both all-zero, so
the entry still verifies).  After drop and remove, the batched leaf
mutations at the duplicated leaf index overwrite each other and verify still
returns true, against the claim. -/
theorem c3_counterexample :
    verify natHasher (addTrace 21) 5 c3mpBad 0 = some true ∧
    drop natHasher (addTrace 21) 5 c3mpBad 0 = some c3rrBad ∧
    (remove_helper natHasher (addTrace 21) c3rrBad).map Prod.fst = some c3sPost ∧
    verify natHasher c3sPost 5 c3mpBad 0 = some true :=
  ⟨by decide, rfl, rfl, by decide⟩

/-- Claim C3 amended witness. -/
theorem c3_amended_witness :
    verify natHasher sAfterRemove 5 mp0 0 = some false :=
  c3_amended natHasher (addTrace 1) 5 mp0 0 rr0 sAfterRemove [] (fun _ _ hab => hab)
    (fun e he => absurd he (List.not_mem_nil e)) List.nodup_nil (by decide) rfl rfl

/-- Claim C4 counterexample: after 10 additions, verify (which divides the
leaf count minus one) accepts the honest proof of the first item, while the
claim's boundary floor(n / BATCH_SIZE) = 1 (encoded by verify_specB) would
treat chunk 0 as archived, demand a dictionary entry, and reject it. -/
theorem c4_counterexample :
    verify natHasher (addTrace 10) 5 mp0 0 = some true ∧
    verify_specB natHasher (addTrace 10) 5 mp0 0 = some false :=
  ⟨by decide, by decide⟩

/-- Claim C4 amended witness. -/
theorem c4_amended_witness :
    (addTrace 1).swbf_inactive.length = currentBatch (addTrace 1) ∧
      windowStart (addTrace 1) = currentBatch (addTrace 1) * CHUNK_SIZE :=
  c4_amended natHasher (addTrace 1)
    (@Reachable.add_step Nat _ natHasher (SetCommitment.default Nat) (addTrace 1)
      (commit natHasher (SetCommitment.default Nat) 5 7) none Reachable.init rfl)
    (by decide)

/-- Claim C5 witness. -/
theorem c5_witness :
    verify natHasher (addTrace 1) 5 mp0 0 = some true ↔
      (specMemberCond natHasher (addTrace 1) 5 mp0 ∧
        specChunksCond natHasher (addTrace 1) mp0 c2bits ∧
        specUnsetCond (addTrace 1) mp0 c2bits) :=
  c5_verify_characterization natHasher (addTrace 1) 5 mp0 0 c2bits rfl (by decide)

/-- Claim C6 witness. -/
theorem c6_witness :
    c2bits.length = NUM_TRIALS ∧ c2bits.Sorted (· < ·) ∧
      ∀ b ∈ c2bits, 0 / BATCH_SIZE * CHUNK_SIZE ≤ b ∧
        b < 0 / BATCH_SIZE * CHUNK_SIZE + WINDOW_SIZE :=
  c6_index_derivation_shape natHasher 5 7 0 0 c2bits rfl

/-- Claim C7 witness. -/
theorem c7_witness :
    ∃ s' copt, add_helper natHasher (SetCommitment.default Nat)
        (commit natHasher (SetCommitment.default Nat) 5 7) = some (s', copt) ∧
      s'.aocl = (SetCommitment.default Nat).aocl ++
        [(commit natHasher (SetCommitment.default Nat) 5 7).commitment] ∧
      s'.aocl.length = (SetCommitment.default Nat).aocl.length + 1 ∧
      (copt.isSome = true ↔
        window_slides (SetCommitment.default Nat).aocl.length = true) :=
  (c7_add_precondition natHasher (SetCommitment.default Nat)
    (commit natHasher (SetCommitment.default Nat) 5 7)).2 (by decide)

/-- Claim C8 counterexample: verify panics (models an out-of-bounds indexing
of swbf_active) on a membership proof whose AOCL leaf exists but whose
cached bit indices lie at or beyond the end of the active window. -/
theorem c8_counterexample :
    verify natHasher (addTrace 1) 5 c8mpBad 0 = none := by decide

/-- Claim C8 amended witness. -/
theorem c8_amended_witness :
    ∃ bv, verify natHasher (addTrace 1) 5 mp0 0 = some bv :=
  (c8_amended natHasher).2.2.2.2 (addTrace 1) 5 mp0 0 c2bits rfl (by decide)

/-- Claim C10 witness. -/
theorem c10_witness :
    ∃ cs cu, (Chunk.mk [0, 5]).set_bit 3 = some cs ∧
      (Chunk.mk [0, 5]).unset_bit 3 = some cu ∧
      cs.get_bit 3 = some true ∧ cu.get_bit 3 = some false ∧
      cs.get_bit 5 = (Chunk.mk [0, 5]).get_bit 5 ∧
      cu.get_bit 5 = (Chunk.mk [0, 5]).get_bit 5 :=
  c10_chunk_bit_laws ⟨[0, 5]⟩ 3 5 (by decide) (by decide) (by decide)

end MutatorSet
